import Mathlib

/-!
Shallow embedding of the release-selection logic of `src/App.tsx`
(version tokenizer, version-string comparator, and the Sparkle feed
release selector), together with proofs of the specification claims.
-/

set_option maxHeartbeats 1000000

namespace Aizen

/-- Embeds the `VersionSegment` tagged union (`App.tsx` lines 694-696):
a segment is either a parsed number or a lowercased string token. -/
inductive VersionSegment where
  | number (value : Nat)
  | string (value : List Char)
  deriving DecidableEq, Repr

/-- JavaScript string `<` on two strings: lexicographic comparison of
code units.  Used to embed `segA.value > segB.value` on string segments
(`App.tsx` line 734: `a > b` is `lexLt b a`). -/
def lexLt : List Char → List Char → Bool
  | [], [] => false
  | [], _ :: _ => true
  | _ :: _, [] => false
  | a :: as, b :: bs =>
    if a.toNat < b.toNat then true else if b.toNat < a.toNat then false else lexLt as bs

/-- One comparison step of the loop body of `compareVersionStrings`
(`App.tsx` lines 725-743): equal values give 0 (the loop continues);
same-kind segments compare by value; a number segment beats a string
segment. -/
def cmpSeg : VersionSegment → VersionSegment → Int
  | .number x, .number y => if x = y then 0 else if y < x then 1 else -1
  | .string x, .string y => if x = y then 0 else if lexLt y x then 1 else -1
  | .number _, .string _ => 1
  | .string _, .number _ => -1

/-- The default segment `{ type: "number", value: 0 }` used for a missing
position (`App.tsx` lines 722-723, the `?? { type: "number", value: 0 }`). -/
def zeroSeg : VersionSegment := .number 0

/-- Comparison of the exhausted left side against the remaining right
side: each missing left position reads as `zeroSeg` (`App.tsx` line 722). -/
def cmpZeros : List VersionSegment → Int
  | [] => 0
  | b :: bs => if cmpSeg zeroSeg b = 0 then cmpZeros bs else cmpSeg zeroSeg b

/-- The comparison loop of `compareVersionStrings` (`App.tsx` lines
721-746): walk positions up to the longer list's length, a missing
position reads as `zeroSeg`; the first position whose comparison is
nonzero decides; otherwise the result is 0. -/
def cmpTokens : List VersionSegment → List VersionSegment → Int
  | [], ys => cmpZeros ys
  | a :: as, [] => if cmpSeg a zeroSeg = 0 then cmpTokens as [] else cmpSeg a zeroSeg
  | a :: as, b :: bs => if cmpSeg a b = 0 then cmpTokens as bs else cmpSeg a b

/-- The split delimiters of the tokenizer: the regex `/[\.-]/`
(`App.tsx` line 707). -/
def isVersionDelim (c : Char) : Bool := c = '.' || c = '-'

/-- Embedding of `String.prototype.split` on the delimiter class: every delimiter
character ends the current piece.  Always returns at least one piece. -/
def splitSegs : List Char → List (List Char)
  | [] => [[]]
  | c :: cs =>
    if isVersionDelim c then [] :: splitSegs cs
    else
      match splitSegs cs with
      | [] => [[c]]
      | s :: rest => (c :: s) :: rest

/-- Embedding of `String.prototype.trim`: drop leading and trailing whitespace
(`App.tsx` line 708). -/
def trimChars (l : List Char) : List Char :=
  ((l.dropWhile Char.isWhitespace).reverse.dropWhile Char.isWhitespace).reverse

/-- The regex test `/^\d+$/` (`App.tsx` line 711): one or more digits and
nothing else. -/
def digitsOnly (l : List Char) : Bool := !l.isEmpty && l.all Char.isDigit

/-- Embedding of `parseInt(segment, 10)` on an all-digit segment (`App.tsx` line 712). -/
def parseDigits (l : List Char) : Nat := l.foldl (fun n c => 10 * n + (c.toNat - 48)) 0

/-- Body of `tokenizeVersion` (`App.tsx` lines 705-714) on the character list of
the version string: split on `.` and `-`, trim each piece, drop empty
pieces, classify each piece as a parsed number or a lowercased string
token. -/
def tokenizeL (l : List Char) : List VersionSegment :=
  (((splitSegs l).map trimChars).filter (fun s => !s.isEmpty)).map
    (fun s => if digitsOnly s then .number (parseDigits s) else .string (s.map Char.toLower))

/-- Embedding of `tokenizeVersion` (`App.tsx` lines 705-714). -/
def tokenizeVersion (s : String) : List VersionSegment := tokenizeL s.toList

/-- Embedding of `compareVersionStrings` (`App.tsx` lines 716-747). -/
def compareVersionStrings (a b : String) : Int :=
  cmpTokens (tokenizeVersion a) (tokenizeVersion b)

/-- A node of the parsed feed document: an element with a tag name, an
attribute list and children, or a text node.  Models the DOM tree that
`DOMParser.parseFromString` hands to `findLatestSparkleRelease`. -/
inductive XmlNode where
  | element (name : String) (attrs : List (String × String)) (children : List XmlNode)
  | text (content : String)
  deriving Repr

/-- Embedding of `Element.getAttribute`: the value of the named attribute, or absent. -/
def getAttr (attrName : String) : XmlNode → Option String
  | .element _ attrs _ => (attrs.find? (fun p => p.1 = attrName)).map (fun p => p.2)
  | .text _ => none

mutual
/-- Embedding of `Node.textContent`: the concatenated text of all descendant text
nodes, in document order. -/
def textContent : XmlNode → String
  | .element _ _ children => textContentList children
  | .text s => s

def textContentList : List XmlNode → String
  | [] => ""
  | c :: cs => textContent c ++ textContentList cs
end

mutual
/-- First descendant element with the given tag name, in document
order (pre-order), searching the whole subtree below a node.  Embeds
`node.querySelector(tag)` restricted to a bare tag-name selector, as
used for `"enclosure"` and `"pubDate"` (`App.tsx` lines 754, 770). -/
def findElem (tag : String) : XmlNode → Option XmlNode
  | .element name attrs children =>
    if name = tag then some (.element name attrs children) else findElemList tag children
  | .text _ => none

def findElemList (tag : String) : List XmlNode → Option XmlNode
  | [] => none
  | c :: cs =>
    match findElem tag c with
    | some r => some r
    | none => findElemList tag cs
end

/-- Embedding of `item.querySelector(tag)`: first matching descendant, excluding the
node itself (CSS selectors match descendants only). -/
def querySelectorIn (tag : String) : XmlNode → Option XmlNode
  | .element _ _ children => findElemList tag children
  | .text _ => none

mutual
/-- All elements named `"item"` whose parent element is named
`"channel"`, in document order.  Embeds
`xml.querySelectorAll("channel > item")` (`App.tsx` line 750). -/
def itemsUnderChannel (parentIsChannel : Bool) : XmlNode → List XmlNode
  | .element name attrs children =>
    (if parentIsChannel && name = "item" then [XmlNode.element name attrs children] else [])
      ++ itemsUnderChannelList (name = "channel") children
  | .text _ => []

def itemsUnderChannelList (parentIsChannel : Bool) : List XmlNode → List XmlNode
  | [] => []
  | c :: cs => itemsUnderChannel parentIsChannel c ++ itemsUnderChannelList parentIsChannel cs
end

/-- The item list of the document (`App.tsx` line 750); the document
root itself has no parent element. -/
def channelItems (doc : XmlNode) : List XmlNode := itemsUnderChannel false doc

/-- Embedding of `String.prototype.trim` at the `String` level. -/
def trimS (s : String) : String := ⟨trimChars s.toList⟩

/-- The `SparkleReleaseCandidate` record (`App.tsx` lines 698-703).
`pubDate` is the parsed publish instant in milliseconds; `none` stands
for JavaScript `null` (a `NaN` parse result). -/
structure SparkleReleaseCandidate where
  versionKey : Option String
  displayVersion : String
  downloadUrl : String
  pubDate : Option Int
  deriving DecidableEq, Repr

/-- The `VersionInfo` record (`App.tsx` lines 689-692). -/
structure VersionInfo where
  version : String
  downloadUrl : String
  deriving DecidableEq, Repr

/-- JavaScript truthiness of a `string | null` value: `null` and the
empty string are falsy (`App.tsx` lines 785, 798, 801). -/
def truthy : Option String → Bool
  | none => false
  | some s => !(s = "")

/-- The expression `versionAttr || shortVersion || null` (`App.tsx` line 767): the
first non-empty (truthy) string, else absent. -/
def mkVersionKey (versionAttr shortVersion : String) : Option String :=
  if !(versionAttr = "") then some versionAttr
  else if !(shortVersion = "") then some shortVersion
  else none

/-- The expression `shortVersion || versionAttr || ""` (`App.tsx` line 768). -/
def mkDisplayVersion (versionAttr shortVersion : String) : String :=
  if !(shortVersion = "") then shortVersion else versionAttr

/-- Candidate construction for one item (`App.tsx` lines 753-778):
require an enclosure and a non-empty trimmed `url` attribute, derive
`versionKey` and `displayVersion` from the trimmed version attributes
via JavaScript `||`, and parse the trimmed `pubDate` text with the
date parser `dparse` (the embedding of `Date.parse`; `none` is `NaN`). -/
def toCandidate (dparse : String → Option Int) (item : XmlNode) :
    Option SparkleReleaseCandidate :=
  match querySelectorIn "enclosure" item with
  | none => none
  | some enclosure =>
    match (getAttr "url" enclosure).map trimS with
    | none => none
    | some downloadUrl =>
      if downloadUrl = "" then none
      else
        let versionAttr := ((getAttr "sparkle:version" enclosure).map trimS).getD ""
        let shortVersion := ((getAttr "sparkle:shortVersionString" enclosure).map trimS).getD ""
        let pubDateText :=
          trimS (((querySelectorIn "pubDate" item).map textContent).getD "")
        let pubDate : Option Int := if !(pubDateText = "") then dparse pubDateText else none
        some ⟨mkVersionKey versionAttr shortVersion,
          mkDisplayVersion versionAttr shortVersion, downloadUrl, pubDate⟩

/-- The date tie-break (`App.tsx` lines 805-810): absent dates read as
minus infinity; the candidate replaces the running best only when its
date is strictly later. -/
def pickByDate (latest candidate : SparkleReleaseCandidate) :
    Option SparkleReleaseCandidate :=
  match candidate.pubDate, latest.pubDate with
  | some cp, some lp => if lp < cp then some candidate else some latest
  | some _, none => some candidate
  | none, _ => some latest

/-- One step of the selection loop (`App.tsx` lines 780-811): an empty
accumulator takes the candidate; two truthy version keys compare with
`compareVersionStrings`; a truthy key beats a falsy one; ties and two
falsy keys fall through to the date tie-break. -/
def updateLatest (latest : Option SparkleReleaseCandidate)
    (candidate : SparkleReleaseCandidate) : Option SparkleReleaseCandidate :=
  match latest with
  | none => some candidate
  | some l =>
    if truthy candidate.versionKey && truthy l.versionKey then
      let versionComparison :=
        compareVersionStrings (candidate.versionKey.getD "") (l.versionKey.getD "")
      if 0 < versionComparison then some candidate
      else if versionComparison < 0 then some l
      else pickByDate l candidate
    else if truthy candidate.versionKey && !truthy l.versionKey then some candidate
    else if !truthy candidate.versionKey && truthy l.versionKey then some l
    else pickByDate l candidate

/-- Embedding of `findLatestSparkleRelease` (`App.tsx` lines 749-821), parameterised
by the environment's date parser `dparse` (the embedding of
`Date.parse`). -/
def findLatestSparkleRelease (dparse : String → Option Int) (doc : XmlNode) :
    Option VersionInfo :=
  match ((channelItems doc).filterMap (toCandidate dparse)).foldl updateLatest none with
  | none => none
  | some latest => some ⟨latest.displayVersion, latest.downloadUrl⟩

/-- A one-enclosure item with a download URL and a `sparkle:version`. -/
def versionedItem (url ver : String) : XmlNode :=
  .element "item" [] [.element "enclosure" [("url", url), ("sparkle:version", ver)] []]

/-- A one-enclosure item with a download URL, a `sparkle:version` and a
`pubDate` text. -/
def datedItem (url ver date : String) : XmlNode :=
  .element "item" []
    [.element "enclosure" [("url", url), ("sparkle:version", ver)] [],
     .element "pubDate" [] [.text date]]

/-- Scenario A feed: three versioned items, no dates. -/
def docA : XmlNode :=
  .element "rss" []
    [.element "channel" []
      [versionedItem "https://example.com/a.zip" "1.2.0",
       versionedItem "https://example.com/b.zip" "1.10.0",
       versionedItem "https://example.com/c.zip" "1.9.5"]]

/-- Scenario B feed: two items with the same version and different
publish dates. -/
def docB : XmlNode :=
  .element "rss" []
    [.element "channel" []
      [datedItem "https://example.com/a.zip" "2.0.0" "Mon, 01 Jan 2024 00:00:00 GMT",
       datedItem "https://example.com/b.zip" "2.0.0" "Wed, 01 Jan 2025 00:00:00 GMT"]]

/-- An item whose enclosure carries only a URL, no version attributes. -/
def bareUrlItem (url : String) : XmlNode :=
  .element "item" [] [.element "enclosure" [("url", url)] []]

/-- Scenario C feed, versioned item first. -/
def docCFirst : XmlNode :=
  .element "rss" []
    [.element "channel" []
      [versionedItem "https://example.com/v.zip" "1.0",
       bareUrlItem "https://example.com/u.zip"]]

/-- Scenario C feed, versioned item second. -/
def docCSecond : XmlNode :=
  .element "rss" []
    [.element "channel" []
      [bareUrlItem "https://example.com/u.zip",
       versionedItem "https://example.com/v.zip" "1.0"]]

/-- Scenario D feed: a channel with zero items. -/
def docEmpty : XmlNode := .element "rss" [] [.element "channel" [] []]

/-- A feed whose items never qualify: one item without an enclosure, one
whose enclosure URL trims to the empty string. -/
def docNoUsable : XmlNode :=
  .element "rss" []
    [.element "channel" []
      [.element "item" [] [.element "title" [] [.text "no enclosure"]],
       .element "item" [] [.element "enclosure" [("url", "   ")] []]]]

/-- The legacy feed shape: a bare top-level enclosure with no
channel/item wrapping. -/
def legacyDoc : XmlNode :=
  .element "enclosure" [("url", "https://example.com/app.zip"), ("sparkle:version", "1.0")] []

/-- A concrete stand-in for `Date.parse` covering the publish dates of
scenario B. -/
def sampleDateParse (s : String) : Option Int :=
  if s = "Mon, 01 Jan 2024 00:00:00 GMT" then some 1704067200000
  else if s = "Wed, 01 Jan 2025 00:00:00 GMT" then some 1735689600000
  else none

theorem lexLt_irrefl (l : List Char) : lexLt l l = false := by
  induction l with
  | nil => rfl
  | cons c cs ih => simp [lexLt, ih]

theorem lexLt_asymm : ∀ {a b : List Char}, lexLt a b = true → lexLt b a = false
  | [], [], h => by simp [lexLt] at h
  | [], _ :: _, _ => rfl
  | _ :: _, [], h => by simp [lexLt] at h
  | a :: as, b :: bs, h => by
    by_cases hab : a.toNat < b.toNat
    · have hba : ¬ b.toNat < a.toNat := by omega
      simp [lexLt, hab, hba]
    · by_cases hba : b.toNat < a.toNat
      · simp [lexLt, hab, hba] at h
      · simp only [lexLt, hab, hba, if_false] at h ⊢
        exact lexLt_asymm h

theorem lexLt_eq_of_not : ∀ {a b : List Char}, lexLt a b = false → lexLt b a = false → a = b
  | [], [], _, _ => rfl
  | [], _ :: _, h, _ => by simp [lexLt] at h
  | _ :: _, [], _, h => by simp [lexLt] at h
  | a :: as, b :: bs, h1, h2 => by
    by_cases hab : a.toNat < b.toNat
    · simp [lexLt, hab] at h1
    · by_cases hba : b.toNat < a.toNat
      · simp [lexLt, hba] at h2
      · have hn : a.toNat = b.toNat := by omega
        have hv : a = b := Char.eq_of_val_eq (UInt32.ext hn)
        simp only [lexLt, hab, hba, if_false] at h1 h2
        rw [hv, lexLt_eq_of_not h1 h2]

theorem lexLt_trans : ∀ {a b c : List Char},
    lexLt a b = true → lexLt b c = true → lexLt a c = true
  | [], [], _, h1, _ => by simp [lexLt] at h1
  | [], _ :: _, [], _, h2 => by simp [lexLt] at h2
  | [], _ :: _, _ :: _, _, _ => rfl
  | _ :: _, [], _, h1, _ => by simp [lexLt] at h1
  | _ :: _, _ :: _, [], _, h2 => by simp [lexLt] at h2
  | a :: as, b :: bs, c :: cs, h1, h2 => by
    by_cases hab : a.toNat < b.toNat
    · by_cases hbc : b.toNat < c.toNat
      · have : a.toNat < c.toNat := by omega
        simp [lexLt, this]
      · by_cases hcb : c.toNat < b.toNat
        · simp [lexLt, hbc, hcb] at h2
        · have hac : a.toNat < c.toNat := by omega
          simp [lexLt, hac]
    · by_cases hba : b.toNat < a.toNat
      · simp [lexLt, hab, hba] at h1
      · have hv : a.toNat = b.toNat := by omega
        by_cases hbc : b.toNat < c.toNat
        · have hac : a.toNat < c.toNat := by omega
          simp [lexLt, hac]
        · by_cases hcb : c.toNat < b.toNat
          · simp [lexLt, hbc, hcb] at h2
          · have hac : ¬ a.toNat < c.toNat := by omega
            have hca : ¬ c.toNat < a.toNat := by omega
            simp only [lexLt, hab, hba, if_false] at h1
            simp only [lexLt, hbc, hcb, if_false] at h2
            simp only [lexLt, hac, hca, if_false]
            exact lexLt_trans h1 h2

theorem cmpSeg_eq_zero_iff : ∀ a b : VersionSegment, cmpSeg a b = 0 ↔ a = b
  | .number x, .number y => by
    simp only [cmpSeg]
    split_ifs with h1 h2 <;> simp_all
  | .string x, .string y => by
    simp only [cmpSeg]
    split_ifs with h1 h2 <;> simp_all
  | .number _, .string _ => by simp [cmpSeg]
  | .string _, .number _ => by simp [cmpSeg]

theorem cmpSeg_antisymm : ∀ a b : VersionSegment, cmpSeg a b = -cmpSeg b a
  | .number x, .number y => by
    simp only [cmpSeg]
    split_ifs <;> omega
  | .string x, .string y => by
    by_cases hxy : x = y
    · subst hxy; simp [cmpSeg]
    · have hyx : ¬ y = x := fun h => hxy h.symm
      by_cases h : lexLt y x
      · have h2 : lexLt x y = false := lexLt_asymm h
        simp [cmpSeg, hxy, hyx, h, h2]
      · have h2 : lexLt x y = true := by
          by_contra hc
          exact hxy (lexLt_eq_of_not (Bool.not_eq_true _ ▸ hc) (by simpa using h))
        simp [cmpSeg, hxy, hyx, h, h2]
  | .number _, .string _ => by simp [cmpSeg]
  | .string _, .number _ => by simp [cmpSeg]

theorem cmpSeg_cases : ∀ a b : VersionSegment,
    cmpSeg a b = 1 ∨ cmpSeg a b = 0 ∨ cmpSeg a b = -1
  | .number _, .number _ => by simp only [cmpSeg]; split_ifs <;> simp
  | .string _, .string _ => by simp only [cmpSeg]; split_ifs <;> simp
  | .number _, .string _ => by simp [cmpSeg]
  | .string _, .number _ => by simp [cmpSeg]

theorem cmpSeg_pos_iff (a b : VersionSegment) : 0 < cmpSeg a b ↔ cmpSeg a b = 1 := by
  rcases cmpSeg_cases a b with h | h | h <;> rw [h] <;> omega

theorem cmpSeg_trans_one : ∀ {a b c : VersionSegment},
    cmpSeg a b = 1 → cmpSeg b c = 1 → cmpSeg a c = 1
  | .number x, .number y, .number z, h1, h2 => by
    simp only [cmpSeg] at h1 h2 ⊢
    split_ifs at h1 h2 ⊢ <;> omega
  | .number _, .number _, .string _, _, _ => by simp [cmpSeg]
  | .number _, .string _, .number _, _, h2 => by simp [cmpSeg] at h2
  | .number _, .string _, .string _, _, _ => by simp [cmpSeg]
  | .string _, .number _, _, h1, _ => by simp [cmpSeg] at h1
  | .string _, .string _, .number _, _, h2 => by simp [cmpSeg] at h2
  | .string x, .string y, .string z, h1, h2 => by
    simp only [cmpSeg] at h1 h2 ⊢
    have hyx : lexLt y x = true := by
      by_cases hxy : x = y
      · simp [hxy] at h1
      · by_cases h : lexLt y x
        · exact h
        · simp [hxy, h] at h1
    have hzy : lexLt z y = true := by
      by_cases hyz : y = z
      · simp [hyz] at h2
      · by_cases h : lexLt z y
        · exact h
        · simp [hyz, h] at h2
    have hzx : lexLt z x = true := lexLt_trans hzy hyx
    have hxz : ¬ x = z := by
      rintro rfl
      rw [lexLt_irrefl] at hzx
      cases hzx
    simp [hxz, hzx]

theorem cmpSeg_refl (a : VersionSegment) : cmpSeg a a = 0 :=
  (cmpSeg_eq_zero_iff a a).mpr rfl

theorem cmpTokens_refl : ∀ xs : List VersionSegment, cmpTokens xs xs = 0
  | [] => rfl
  | a :: as => by simp [cmpTokens, cmpSeg_refl, cmpTokens_refl as]

theorem cmpTokens_replicate_left :
    ∀ (k : Nat) (ys : List VersionSegment),
      cmpTokens (List.replicate k zeroSeg) ys = cmpZeros ys
  | 0, _ => rfl
  | k + 1, [] => by
    have ih := cmpTokens_replicate_left k []
    simp [List.replicate_succ, cmpTokens, cmpSeg_refl, ih, cmpZeros]
  | k + 1, b :: bs => by
    have ih := cmpTokens_replicate_left k bs
    by_cases h : cmpSeg zeroSeg b = 0 <;>
      simp [List.replicate_succ, cmpTokens, cmpZeros, h, ih]

theorem cmpZeros_append_replicate :
    ∀ (ys : List VersionSegment) (k : Nat),
      cmpZeros (ys ++ List.replicate k zeroSeg) = cmpZeros ys
  | [], k => by
    induction k with
    | zero => rfl
    | succ k ih => simpa [List.replicate_succ, cmpZeros, cmpSeg_refl] using ih
  | b :: bs, k => by
    by_cases h : cmpSeg zeroSeg b = 0 <;>
      simp [cmpZeros, h, cmpZeros_append_replicate bs k]

theorem cmpTokens_append_zeros_left :
    ∀ (xs ys : List VersionSegment) (k : Nat),
      cmpTokens (xs ++ List.replicate k zeroSeg) ys = cmpTokens xs ys
  | [], ys, k => by simpa [cmpTokens] using cmpTokens_replicate_left k ys
  | a :: as, [], k => by
    by_cases h : cmpSeg a zeroSeg = 0 <;>
      simp [cmpTokens, h, cmpTokens_append_zeros_left as [] k]
  | a :: as, b :: bs, k => by
    by_cases h : cmpSeg a b = 0 <;>
      simp [cmpTokens, h, cmpTokens_append_zeros_left as bs k]

theorem cmpTokens_append_zeros_right :
    ∀ (xs ys : List VersionSegment) (k : Nat),
      cmpTokens xs (ys ++ List.replicate k zeroSeg) = cmpTokens xs ys
  | [], ys, k => by simpa [cmpTokens] using cmpZeros_append_replicate ys k
  | a :: as, [], k => by
    cases k with
    | zero => simp
    | succ k =>
      have ih := cmpTokens_append_zeros_right as [] k
      by_cases h : cmpSeg a zeroSeg = 0 <;>
        simp_all [List.replicate_succ, cmpTokens, h]
  | a :: as, b :: bs, k => by
    by_cases h : cmpSeg a b = 0 <;>
      simp [cmpTokens, h, cmpTokens_append_zeros_right as bs k]

theorem cmpTokens_nil_antisymm : ∀ ys : List VersionSegment,
    cmpTokens [] ys = -cmpTokens ys []
  | [] => by simp [cmpTokens, cmpZeros]
  | b :: bs => by
    have ih := cmpTokens_nil_antisymm bs
    have hab := cmpSeg_antisymm zeroSeg b
    by_cases h : cmpSeg b zeroSeg = 0
    · have h2 : cmpSeg zeroSeg b = 0 := by omega
      simp only [cmpTokens, cmpZeros, h, h2, if_true, if_pos]
      simpa [cmpTokens] using ih
    · have h2 : cmpSeg zeroSeg b ≠ 0 := by omega
      simp only [cmpTokens, cmpZeros, h, h2, if_neg, if_false]
      omega

theorem cmpTokens_antisymm : ∀ xs ys : List VersionSegment,
    cmpTokens xs ys = -cmpTokens ys xs
  | [], ys => cmpTokens_nil_antisymm ys
  | a :: as, [] => by
    have := cmpTokens_nil_antisymm (a :: as)
    omega
  | a :: as, b :: bs => by
    have ih := cmpTokens_antisymm as bs
    have hab := cmpSeg_antisymm a b
    by_cases h : cmpSeg a b = 0
    · have h2 : cmpSeg b a = 0 := by omega
      simp [cmpTokens, h, h2, ih]
    · have h2 : cmpSeg b a ≠ 0 := by omega
      simp only [cmpTokens, h, h2, if_neg, if_false]
      omega

theorem cmpTokens_pos_trans_eqlen : ∀ xs ys zs : List VersionSegment,
    xs.length = ys.length → ys.length = zs.length →
    0 < cmpTokens xs ys → 0 < cmpTokens ys zs → 0 < cmpTokens xs zs
  | [], [], [], _, _, h1, _ => by simp [cmpTokens, cmpZeros] at h1
  | [], [], _ :: _, _, hl2, _, _ => by simp at hl2
  | [], _ :: _, _, hl1, _, _, _ => by simp at hl1
  | _ :: _, [], _, hl1, _, _, _ => by simp at hl1
  | _ :: _, _ :: _, [], _, hl2, _, _ => by simp at hl2
  | a :: as, b :: bs, c :: cs, hl1, hl2, h1, h2 => by
    simp only [List.length_cons, Nat.add_right_cancel_iff] at hl1 hl2
    by_cases hab : cmpSeg a b = 0
    · have hb : a = b := (cmpSeg_eq_zero_iff a b).mp hab
      subst hb
      simp only [cmpTokens, hab, if_pos] at h1
      by_cases hbc : cmpSeg a c = 0
      · have hc : a = c := (cmpSeg_eq_zero_iff a c).mp hbc
        subst hc
        simp only [cmpTokens, hbc, if_pos] at h2 ⊢
        exact cmpTokens_pos_trans_eqlen as bs cs hl1 hl2 h1 h2
      · simp only [cmpTokens, hbc, if_neg, if_false] at h2 ⊢
        exact h2
    · simp only [cmpTokens, hab, if_neg, if_false] at h1
      by_cases hbc : cmpSeg b c = 0
      · have hc : b = c := (cmpSeg_eq_zero_iff b c).mp hbc
        subst hc
        simp only [cmpTokens, hab, if_neg, if_false]
        exact h1
      · simp only [cmpTokens, hbc, if_neg, if_false] at h2
        have e1 : cmpSeg a b = 1 := (cmpSeg_pos_iff a b).mp h1
        have e2 : cmpSeg b c = 1 := (cmpSeg_pos_iff b c).mp h2
        have e3 : cmpSeg a c = 1 := cmpSeg_trans_one e1 e2
        simp [cmpTokens, e3]

theorem cmpTokens_pos_trans (xs ys zs : List VersionSegment)
    (h1 : 0 < cmpTokens xs ys) (h2 : 0 < cmpTokens ys zs) : 0 < cmpTokens xs zs := by
  have hx : xs.length ≤ max (max xs.length ys.length) zs.length :=
    le_trans (le_max_left _ _) (le_max_left _ _)
  have hy : ys.length ≤ max (max xs.length ys.length) zs.length :=
    le_trans (le_max_right _ _) (le_max_left _ _)
  have hz : zs.length ≤ max (max xs.length ys.length) zs.length :=
    le_max_right _ _
  have lenEq : ∀ ws : List VersionSegment,
      ws.length ≤ max (max xs.length ys.length) zs.length →
      (ws ++ List.replicate (max (max xs.length ys.length) zs.length - ws.length)
        zeroSeg).length = max (max xs.length ys.length) zs.length := by
    intro ws hw
    simp only [List.length_append, List.length_replicate]
    omega
  have eXY : cmpTokens
      (xs ++ List.replicate (max (max xs.length ys.length) zs.length - xs.length) zeroSeg)
      (ys ++ List.replicate (max (max xs.length ys.length) zs.length - ys.length) zeroSeg)
      = cmpTokens xs ys := by
    rw [cmpTokens_append_zeros_left, cmpTokens_append_zeros_right]
  have eYZ : cmpTokens
      (ys ++ List.replicate (max (max xs.length ys.length) zs.length - ys.length) zeroSeg)
      (zs ++ List.replicate (max (max xs.length ys.length) zs.length - zs.length) zeroSeg)
      = cmpTokens ys zs := by
    rw [cmpTokens_append_zeros_left, cmpTokens_append_zeros_right]
  have eXZ : cmpTokens
      (xs ++ List.replicate (max (max xs.length ys.length) zs.length - xs.length) zeroSeg)
      (zs ++ List.replicate (max (max xs.length ys.length) zs.length - zs.length) zeroSeg)
      = cmpTokens xs zs := by
    rw [cmpTokens_append_zeros_left, cmpTokens_append_zeros_right]
  rw [← eXZ]
  exact cmpTokens_pos_trans_eqlen _ _ _
    ((lenEq xs hx).trans (lenEq ys hy).symm)
    ((lenEq ys hy).trans (lenEq zs hz).symm)
    (eXY.symm ▸ h1) (eYZ.symm ▸ h2)

theorem splitSegs_ne_nil : ∀ l : List Char, splitSegs l ≠ []
  | [] => by simp [splitSegs]
  | c :: cs => by
    by_cases h : isVersionDelim c
    · simp [splitSegs, h]
    · simp only [splitSegs, h, Bool.false_eq_true, if_false]
      cases hs : splitSegs cs <;> simp

theorem splitSegs_append_delim :
    ∀ (u : List Char) (c : Char) (v : List Char), isVersionDelim c = true →
      splitSegs (u ++ c :: v) = splitSegs u ++ splitSegs v
  | [], c, v, hc => by simp [splitSegs, hc]
  | d :: u, c, v, hc => by
    have ih := splitSegs_append_delim u c v hc
    by_cases hd : isVersionDelim d
    · simp [splitSegs, hd, ih]
    · obtain ⟨s, rest, hs⟩ := List.exists_cons_of_ne_nil (splitSegs_ne_nil u)
      simp [splitSegs, hd, ih, hs]

theorem tokenizeL_append_dot_zero (l : List Char) :
    tokenizeL (l ++ ['.', '0']) = tokenizeL l ++ [VersionSegment.number 0] := by
  unfold tokenizeL
  rw [show l ++ ['.', '0'] = l ++ '.' :: ['0'] from rfl,
    splitSegs_append_delim l '.' ['0'] (by decide),
    List.map_append, List.filter_append, List.map_append]
  congr 1

theorem cmpTokens_self_append_zero (ts : List VersionSegment) :
    cmpTokens ts (ts ++ [VersionSegment.number 0]) = 0 := by
  have h := cmpTokens_append_zeros_right ts ts 1
  simpa [List.replicate, zeroSeg, cmpTokens_refl ts] using h

theorem dropWhile_idem (p : Char → Bool) :
    ∀ l : List Char, List.dropWhile p (List.dropWhile p l) = List.dropWhile p l
  | [] => rfl
  | c :: cs => by
    by_cases h : p c
    · simp [List.dropWhile_cons, h, dropWhile_idem p cs]
    · simp [List.dropWhile_cons, h]

theorem dropWhile_dropped_exists (p : Char → Bool) :
    ∀ l : List Char, ∃ s, s ++ List.dropWhile p l = l
  | [] => ⟨[], rfl⟩
  | c :: cs => by
    by_cases h : p c
    · obtain ⟨s, hs⟩ := dropWhile_dropped_exists p cs
      exact ⟨c :: s, by simp [List.dropWhile_cons, h, hs]⟩
    · exact ⟨[], by simp [List.dropWhile_cons, h]⟩

theorem dropWhile_eq_self_of_front (p : Char → Bool) {l l2 : List Char}
    (hl : List.dropWhile p l = l) (hpre : ∃ t, l2 ++ t = l) :
    List.dropWhile p l2 = l2 := by
  cases l2 with
  | nil => rfl
  | cons c cs =>
    obtain ⟨t, ht⟩ := hpre
    have hc : p c = false := by
      by_contra hc
      have hc' : p c = true := by simpa using hc
      subst ht
      simp only [List.cons_append, List.dropWhile_cons, hc', if_true] at hl
      have hsub := (List.dropWhile_sublist (l := cs ++ t) (p := p)).length_le
      have hlen := congrArg List.length hl
      simp only [List.length_cons, List.length_append] at hlen hsub
      omega
    simp [List.dropWhile_cons, hc]

theorem trimChars_idem (l : List Char) : trimChars (trimChars l) = trimChars l := by
  unfold trimChars
  have h1 : List.dropWhile Char.isWhitespace (l.dropWhile Char.isWhitespace)
      = l.dropWhile Char.isWhitespace := dropWhile_idem _ l
  have hpre : ∃ t,
      ((l.dropWhile Char.isWhitespace).reverse.dropWhile Char.isWhitespace).reverse ++ t
        = l.dropWhile Char.isWhitespace := by
    obtain ⟨s, hs⟩ :=
      dropWhile_dropped_exists Char.isWhitespace (l.dropWhile Char.isWhitespace).reverse
    refine ⟨s.reverse, ?_⟩
    rw [← List.reverse_append, hs, List.reverse_reverse]
  have h2 := dropWhile_eq_self_of_front Char.isWhitespace h1 hpre
  rw [h2, List.reverse_reverse, dropWhile_idem]

theorem trimS_idem (s : String) : trimS (trimS s) = trimS s :=
  congrArg String.mk (trimChars_idem s.toList)

/-- The construction invariant of running-best candidates: the download
URL is a non-empty trimmed string, and a present version key is a
non-empty string. -/
def goodCand (c : SparkleReleaseCandidate) : Prop :=
  c.downloadUrl ≠ "" ∧ trimS c.downloadUrl = c.downloadUrl ∧
    ∀ k, c.versionKey = some k → k ≠ ""

theorem mkVersionKey_ne_empty (versionAttr shortVersion k : String)
    (h : mkVersionKey versionAttr shortVersion = some k) : k ≠ "" := by
  unfold mkVersionKey at h
  split_ifs at h with h1 h2
  · obtain rfl : versionAttr = k := by injection h
    simpa using h1
  · obtain rfl : shortVersion = k := by injection h
    simpa using h2

theorem toCandidate_good (dparse : String → Option Int) (item : XmlNode)
    (c : SparkleReleaseCandidate) (h : toCandidate dparse item = some c) :
    goodCand c := by
  simp only [toCandidate] at h
  split at h
  · cases h
  split at h
  · cases h
  rename_i e henc u hurl
  split at h
  · cases h
  rename_i hu
  obtain ⟨raw, _, hraw⟩ := Option.map_eq_some'.mp hurl
  have htrim : trimS u = u := by rw [← hraw, trimS_idem]
  simp only [Option.some.injEq] at h
  subst h
  exact ⟨hu, htrim, fun k hk => mkVersionKey_ne_empty _ _ k hk⟩

theorem pickByDate_cases (l c : SparkleReleaseCandidate) :
    pickByDate l c = some l ∨ pickByDate l c = some c := by
  rcases hc : c.pubDate with _ | cp
  · left; simp [pickByDate, hc]
  rcases hl : l.pubDate with _ | lp
  · right; simp [pickByDate, hc, hl]
  by_cases hlt : lp < cp
  · right; simp [pickByDate, hc, hl, hlt]
  · left; simp [pickByDate, hc, hl, hlt]

theorem updateLatest_some_cases (l c : SparkleReleaseCandidate) :
    updateLatest (some l) c = some l ∨ updateLatest (some l) c = some c := by
  simp only [updateLatest]
  split_ifs <;> first
    | simp
    | exact pickByDate_cases l c

theorem foldl_updateLatest_good :
    ∀ (cands : List SparkleReleaseCandidate) (acc : Option SparkleReleaseCandidate),
      (∀ c ∈ cands, goodCand c) → (∀ a, acc = some a → goodCand a) →
      ∀ b, cands.foldl updateLatest acc = some b → goodCand b
  | [], _, _, hacc, b, hb => hacc b hb
  | c :: cs, acc, hc, hacc, b, hb => by
    refine foldl_updateLatest_good cs (updateLatest acc c)
      (fun x hx => hc x (by simp [hx])) ?_ b hb
    intro a ha
    have hgc : goodCand c := hc c (List.mem_cons_self _ _)
    cases acc with
    | none =>
      simp only [updateLatest, Option.some.injEq] at ha
      exact ha ▸ hgc
    | some l =>
      have hgl : goodCand l := hacc l rfl
      rcases updateLatest_some_cases l c with h | h <;> rw [h] at ha <;>
        simp only [Option.some.injEq] at ha
      · exact ha ▸ hgl
      · exact ha ▸ hgc

theorem findLatest_none_of_no_candidate (dparse : String → Option Int) (doc : XmlNode)
    (h : ∀ it ∈ channelItems doc, toCandidate dparse it = none) :
    findLatestSparkleRelease dparse doc = none := by
  have he : (channelItems doc).filterMap (toCandidate dparse) = [] :=
    List.filterMap_eq_nil_iff.mpr h
  simp [findLatestSparkleRelease, he]

/-- Claim C1: numeric version segments compare by integer magnitude,
not lexically: `compareVersionStrings "10.0" "9.0"` is positive, and on
a feed with version identifiers `1.2.0`, `1.10.0`, `1.9.5` (non-empty
URLs, no publish dates) the selector picks the `1.10.0` entry, for every
date parser. -/
theorem claim_C1_numeric_magnitude :
    0 < compareVersionStrings "10.0" "9.0" ∧
    ∀ dparse, findLatestSparkleRelease dparse docA
      = some ⟨"1.10.0", "https://example.com/b.zip"⟩ :=
  ⟨by decide, fun _ => rfl⟩

/-- Claim C2: at the first discriminating position, a numeric segment
strictly outranks a string segment: after any tied common prefix (tied
positions are equal segments, by `cmpSeg_eq_zero_iff`), the comparison
loop returns 1 when it meets a number versus a string token, and
`compareVersionStrings "1.0.0" "1.0.beta"` is positive. -/
theorem claim_C2_numeric_beats_string :
    (∀ (ts as bs : List VersionSegment) (n : Nat) (s : List Char),
      cmpTokens (ts ++ VersionSegment.number n :: as)
        (ts ++ VersionSegment.string s :: bs) = 1) ∧
    0 < compareVersionStrings "1.0.0" "1.0.beta" := by
  refine ⟨?_, by decide⟩
  intro ts as bs n s
  induction ts with
  | nil => simp [cmpTokens, cmpSeg]
  | cons t ts ih => simp [cmpTokens, cmpSeg_refl, ih]

/-- Claim C3 counterexample: contrary to the claim,
`compareVersionStrings "1.0" "1.0-beta"` IS positive — the missing
third position of `1.0` is padded with numeric 0, which outranks the
string token `beta`. -/
theorem claim_C3_counterexample : 0 < compareVersionStrings "1.0" "1.0-beta" := by
  decide

/-- Claim C3 (amended): `compareVersionStrings "1.0" "1.0-beta"` is
exactly 1: after zero-padding, the numeric 0 at position 2 beats the
string token `beta`, so `"1.0"` sorts strictly ahead of `"1.0-beta"`. -/
theorem claim_C3_amended : compareVersionStrings "1.0" "1.0-beta" = 1 := by
  decide

/-- Claim C4: `compareVersionStrings` is reflexively zero, antisymmetric
(`compare a b = -compare b a`) and transitive on strict positivity. -/
theorem claim_C4_total_order :
    (∀ a : String, compareVersionStrings a a = 0) ∧
    (∀ a b : String, compareVersionStrings a b = -compareVersionStrings b a) ∧
    (∀ a b c : String, 0 < compareVersionStrings a b →
      0 < compareVersionStrings b c → 0 < compareVersionStrings a c) :=
  ⟨fun _ => cmpTokens_refl _,
   fun _ _ => cmpTokens_antisymm _ _,
   fun _ _ _ h1 h2 => cmpTokens_pos_trans _ _ _ h1 h2⟩

/-- Witness for C4: transitivity applied at `3.0 > 2.0 > 1.0`. -/
theorem claim_C4_total_order_witness :
    0 < compareVersionStrings "3.0" "2.0" ∧ 0 < compareVersionStrings "2.0" "1.0" ∧
      0 < compareVersionStrings "3.0" "1.0" :=
  ⟨by decide, by decide,
    claim_C4_total_order.2.2 "3.0" "2.0" "1.0" (by decide) (by decide)⟩

/-- Claim C5: a position missing from the shorter token sequence
compares as numeric zero: appending `.0` to any version string leaves
the comparison result 0, and `"1.0"` compares equal to `"1.0.0"`. -/
theorem claim_C5_zero_padding :
    (∀ a : String, compareVersionStrings a (a ++ ".0") = 0) ∧
    compareVersionStrings "1.0" "1.0.0" = 0 := by
  refine ⟨?_, by decide⟩
  intro a
  unfold compareVersionStrings tokenizeVersion
  have hd : (a ++ ".0").toList = a.toList ++ ['.', '0'] := String.data_append a ".0"
  rw [hd, tokenizeL_append_dot_zero]
  exact cmpTokens_self_append_zero _

/-- Claim C6: when both candidates have equal (under the comparator)
truthy version keys, or both have falsy version keys, the fold step
resolves by publish date: a strictly later parsed date wins, an absent
date never beats the running best, and an absent running-best date
loses to any parsed candidate date; concretely, two items with version
`2.0.0` and publish dates in 2024 and 2025 select the 2025 entry. -/
theorem claim_C6_date_tiebreak :
    (∀ l c : SparkleReleaseCandidate,
      ((∃ ck lk, c.versionKey = some ck ∧ l.versionKey = some lk ∧ ck ≠ "" ∧ lk ≠ "" ∧
          compareVersionStrings ck lk = 0) ∨
        (truthy c.versionKey = false ∧ truthy l.versionKey = false)) →
      (∀ cp lp : Int, c.pubDate = some cp → l.pubDate = some lp →
        updateLatest (some l) c = if lp < cp then some c else some l) ∧
      (c.pubDate = none → updateLatest (some l) c = some l) ∧
      (l.pubDate = none → c.pubDate ≠ none → updateLatest (some l) c = some c)) ∧
    (∀ (dparse : String → Option Int) (t1 t2 : Int),
      dparse "Mon, 01 Jan 2024 00:00:00 GMT" = some t1 →
      dparse "Wed, 01 Jan 2025 00:00:00 GMT" = some t2 → t1 < t2 →
      findLatestSparkleRelease dparse docB
        = some ⟨"2.0.0", "https://example.com/b.zip"⟩) := by
  constructor
  · intro l c hkey
    have hstep : updateLatest (some l) c = pickByDate l c := by
      rcases hkey with ⟨ck, lk, hck, hlk, hck0, hlk0, hcmp⟩ | ⟨hc, hl⟩
      · have htc : truthy (some ck) = true := by simp [truthy, hck0]
        have htl : truthy (some lk) = true := by simp [truthy, hlk0]
        simp [updateLatest, hck, hlk, htc, htl, hcmp]
      · simp [updateLatest, hc, hl]
    refine ⟨?_, ?_, ?_⟩
    · intro cp lp hcp hlp
      rw [hstep]
      by_cases hlt : lp < cp <;> simp [pickByDate, hcp, hlp, hlt]
    · intro hcp
      rw [hstep]
      simp [pickByDate, hcp]
    · intro hlp hcp
      rcases hc : c.pubDate with _ | cp
      · exact absurd hc hcp
      · rw [hstep]
        simp [pickByDate, hc, hlp]
  · intro dparse t1 t2 h1 h2 hlt
    have e : findLatestSparkleRelease dparse docB =
        match pickByDate
          ⟨some "2.0.0", "2.0.0", "https://example.com/a.zip",
            dparse "Mon, 01 Jan 2024 00:00:00 GMT"⟩
          ⟨some "2.0.0", "2.0.0", "https://example.com/b.zip",
            dparse "Wed, 01 Jan 2025 00:00:00 GMT"⟩ with
        | none => none
        | some latest => some ⟨latest.displayVersion, latest.downloadUrl⟩ := rfl
    rw [e]
    simp [pickByDate, h1, h2, hlt]

/-- Witness for C6: the fold step at two concrete same-version
candidates dated 10 and 20 keeps the later one, and the scenario-B feed
evaluated with a concrete date parser selects the 2025 entry. -/
theorem claim_C6_date_tiebreak_witness :
    updateLatest (some ⟨some "2.0.0", "2.0.0", "u1", some 10⟩)
        ⟨some "2.0.0", "2.0.0", "u2", some 20⟩
      = some ⟨some "2.0.0", "2.0.0", "u2", some 20⟩ ∧
    findLatestSparkleRelease sampleDateParse docB
      = some ⟨"2.0.0", "https://example.com/b.zip"⟩ := by
  constructor
  · have h := (claim_C6_date_tiebreak.1
      ⟨some "2.0.0", "2.0.0", "u1", some 10⟩
      ⟨some "2.0.0", "2.0.0", "u2", some 20⟩
      (Or.inl ⟨"2.0.0", "2.0.0", rfl, rfl, by decide, by decide, by decide⟩)).1
      20 10 rfl rfl
    rw [if_pos (by decide : (10 : Int) < 20)] at h
    exact h
  · exact claim_C6_date_tiebreak.2 sampleDateParse 1704067200000 1735689600000
      rfl rfl (by decide)

/-- Claim C7: a candidate with a truthy version key always replaces a
running best without one, and never loses to it, independently of both
publish dates; concretely the scenario-C feeds select the versioned
item in either document order, for every date parser. -/
theorem claim_C7_versioned_beats_unversioned :
    (∀ l c : SparkleReleaseCandidate, truthy c.versionKey = true →
      truthy l.versionKey = false → updateLatest (some l) c = some c) ∧
    (∀ l c : SparkleReleaseCandidate, truthy c.versionKey = false →
      truthy l.versionKey = true → updateLatest (some l) c = some l) ∧
    (∀ dparse, findLatestSparkleRelease dparse docCFirst
      = some ⟨"1.0", "https://example.com/v.zip"⟩) ∧
    (∀ dparse, findLatestSparkleRelease dparse docCSecond
      = some ⟨"1.0", "https://example.com/v.zip"⟩) := by
  refine ⟨?_, ?_, fun _ => rfl, fun _ => rfl⟩
  · intro l c hc hl
    simp [updateLatest, hc, hl]
  · intro l c hc hl
    simp [updateLatest, hc, hl]

/-- Witness for C7: the fold step at a versioned versus an unversioned
concrete candidate, in both orders. -/
theorem claim_C7_versioned_beats_unversioned_witness :
    updateLatest (some ⟨none, "", "u1", none⟩) ⟨some "1.0", "1.0", "u2", none⟩
      = some ⟨some "1.0", "1.0", "u2", none⟩ ∧
    updateLatest (some ⟨some "1.0", "1.0", "u1", none⟩) ⟨none, "", "u2", none⟩
      = some ⟨some "1.0", "1.0", "u1", none⟩ :=
  ⟨claim_C7_versioned_beats_unversioned.1 _ _ (by decide) (by decide),
   claim_C7_versioned_beats_unversioned.2.1 _ _ (by decide) (by decide)⟩

/-- Claim C8: a feed whose channel has zero items, or in which every
item lacks an enclosure or has an absent or empty trimmed URL
attribute, selects nothing; the selector is a total function, so
per-item defects only exclude that item. -/
theorem claim_C8_none_when_no_usable :
    (∀ (dparse : String → Option Int) (doc : XmlNode),
      (∀ it ∈ channelItems doc,
        querySelectorIn "enclosure" it = none ∨
          ∃ e, querySelectorIn "enclosure" it = some e ∧
            ((getAttr "url" e).map trimS = none ∨ (getAttr "url" e).map trimS = some "")) →
      findLatestSparkleRelease dparse doc = none) ∧
    (∀ dparse, findLatestSparkleRelease dparse docEmpty = none) := by
  refine ⟨?_, fun _ => rfl⟩
  intro dparse doc h
  apply findLatest_none_of_no_candidate
  intro it hit
  rcases h it hit with henc | ⟨e, he, hu⟩
  · simp [toCandidate, henc]
  · rcases hu with hu | hu <;> simp [toCandidate, he, hu]

/-- Witness for C8: the no-usable-item feed (one item without an
enclosure, one whose URL trims to empty) selects nothing. -/
theorem claim_C8_none_when_no_usable_witness :
    findLatestSparkleRelease (fun _ => none) docNoUsable = none := by
  apply claim_C8_none_when_no_usable.1
  intro it hit
  have hcl : channelItems docNoUsable =
      [XmlNode.element "item" [] [XmlNode.element "title" [] [XmlNode.text "no enclosure"]],
       XmlNode.element "item" [] [XmlNode.element "enclosure" [("url", "   ")] []]] := rfl
  rw [hcl] at hit
  simp only [List.mem_cons, List.not_mem_nil, or_false] at hit
  rcases hit with rfl | rfl
  · left; rfl
  · right
    exact ⟨XmlNode.element "enclosure" [("url", "   ")] [], rfl, Or.inr rfl⟩

/-- Claim C9: the legacy feed shape — a bare top-level enclosure with
no channel/item wrapping — yields no channel items, and the selector
degrades to the absent result for every date parser. -/
theorem claim_C9_legacy_degrades :
    channelItems legacyDoc = [] ∧
    ∀ dparse, findLatestSparkleRelease dparse legacyDoc = none :=
  ⟨rfl, fun _ => rfl⟩

/-- Claim C10: every constructed candidate has a non-empty trimmed
download URL and a non-empty version key when one is present; a truthy
version key unwraps to a non-empty string (so `compareVersionStrings`
is only reached with two non-empty strings); the fold step preserves
the invariant; and any non-absent selection result carries a non-empty
trimmed download URL. -/
theorem claim_C10_invariant :
    (∀ (dparse : String → Option Int) (it : XmlNode) (c : SparkleReleaseCandidate),
      toCandidate dparse it = some c → goodCand c) ∧
    (∀ o : Option String, truthy o = true → o.getD "" ≠ "") ∧
    (∀ l c r : SparkleReleaseCandidate, goodCand l → goodCand c →
      updateLatest (some l) c = some r → goodCand r) ∧
    (∀ (dparse : String → Option Int) (doc : XmlNode) (r : VersionInfo),
      findLatestSparkleRelease dparse doc = some r →
        r.downloadUrl ≠ "" ∧ trimS r.downloadUrl = r.downloadUrl) := by
  refine ⟨toCandidate_good, ?_, ?_, ?_⟩
  · intro o ho
    cases o with
    | none => cases ho
    | some s =>
      simp only [truthy, Bool.not_eq_eq_eq_not, Bool.not_true, decide_eq_false_iff_not] at ho
      simpa using ho
  · intro l c r hl hc hr
    rcases updateLatest_some_cases l c with h | h
    · rw [h] at hr
      injection hr with hr2
      exact hr2 ▸ hl
    · rw [h] at hr
      injection hr with hr2
      exact hr2 ▸ hc
  · intro dparse doc r hfind
    rcases hfold : ((channelItems doc).filterMap (toCandidate dparse)).foldl
        updateLatest none with _ | b
    · simp only [findLatestSparkleRelease, hfold] at hfind
      exact Option.noConfusion hfind
    · simp only [findLatestSparkleRelease, hfold, Option.some.injEq] at hfind
      have hgb : goodCand b := by
        refine foldl_updateLatest_good _ none ?_ (fun a ha => by cases ha) b hfold
        intro c hcmem
        obtain ⟨it, _, hsome⟩ := List.mem_filterMap.mp hcmem
        exact toCandidate_good dparse it c hsome
      subst hfind
      exact ⟨hgb.1, hgb.2.1⟩

/-- Witness for C10: the invariant at a concrete constructed candidate,
and the non-empty result URL of the scenario-A feed. -/
theorem claim_C10_invariant_witness :
    goodCand ⟨some "1.10.0", "1.10.0", "https://example.com/b.zip", none⟩ ∧
    "https://example.com/b.zip" ≠ "" :=
  ⟨claim_C10_invariant.1 (fun _ => none)
      (versionedItem "https://example.com/b.zip" "1.10.0") _ rfl,
   (claim_C10_invariant.2.2.2 (fun _ => none) docA
      ⟨"1.10.0", "https://example.com/b.zip"⟩ rfl).1⟩

end Aizen
